import Mathlib

/-!
Verification of the weather-metrics registry and time-series filter.

The development shallowly embeds the program's three modules:
  * `metrics.py`  — `Aggregation`, `Metrics` (a pydantic model whose `name`
    field is normalized by an `upper` validator), `MetricsRegistry` with its
    process-wide prefix namespace, and the module-level canonical metrics and
    registries;
  * `dataframes.py` — the `Timeseries` schema and the schema-gated
    `filter_metrics` function over tabular rows;
  * `main.py` — only the `PARTIAL_METRICS_REGISTRY` bootstrap matters here.

Python strings are embedded as Lean `String`; `str.upper` is embedded
character-wise with `Char.toUpper` (ASCII case mapping, which covers every
string the program manipulates), and the whitespace class of `str.split` is
embedded with `Char.isWhitespace`.  The process-wide dictionary
`MetricsRegistry._registries_prefixes` is embedded as an explicitly threaded
list of its keys (insertion-ordered, which the error message observes).
Floating-point `value` cells and datetime `timestamp` cells are inert in this
program — they are only type-checked and copied — so they are embedded as
abstract integer payloads.
-/

set_option autoImplicit false

namespace WeatherMetrics

/-! ### Python string primitives -/

/-- Embeds Python `str.upper` (character-wise ASCII case mapping). -/
def upperStr (s : String) : String :=
  ⟨s.data.map Char.toUpper⟩

/-- One step of Python `str.split()` with an accumulator: `acc` is the
current word being built (reversed), `none` when between words.  Splits on
runs of whitespace and never yields empty words, exactly as `str.split()`
with no argument does. -/
def splitAux : Option (List Char) → List Char → List (List Char)
  | none, [] => []
  | some w, [] => [w.reverse]
  | none, c :: cs =>
      if c.isWhitespace then splitAux none cs else splitAux (some [c]) cs
  | some w, c :: cs =>
      if c.isWhitespace then w.reverse :: splitAux none cs
      else splitAux (some (c :: w)) cs

/-- Embeds Python `str.split()` (no argument): split on whitespace runs,
dropping empty results. -/
def pySplit (l : List Char) : List (List Char) :=
  splitAux none l

/-- Embeds Python `"_".join(words)`. -/
def joinUnderscore : List (List Char) → List Char
  | [] => []
  | [w] => w
  | w :: v :: ws => w ++ '_' :: joinUnderscore (v :: ws)

/-- Embeds the `upper` validator of `Metrics`:
`"_".join(value.upper().split())`. -/
def normalizeName (s : String) : String :=
  ⟨joinUnderscore (pySplit (s.data.map Char.toUpper))⟩

/-- Spec-side reading of the name normalization, for comparison with
`normalizeName`: after a leading whitespace run has been removed, every
internal maximal whitespace run becomes a single underscore, and a trailing
whitespace run is dropped (a trailing run is not internal: no non-whitespace
character follows it). -/
def collapseRuns : List Char → List Char
  | [] => []
  | c :: cs =>
    if c.isWhitespace then
      match h : cs.dropWhile Char.isWhitespace with
      | [] => []
      | d :: ds => '_' :: collapseRuns (d :: ds)
    else c :: collapseRuns cs
termination_by l => l.length
decreasing_by
  · have hle := (List.dropWhile_sublist (l := cs) Char.isWhitespace).length_le
    rw [h] at hle
    simpa using Nat.lt_succ_of_le hle
  · simp

/-- Spec-side description of the stored metric name: the argument uppercased,
with every internal whitespace run replaced by a single underscore. -/
def specNormalizeName (s : String) : String :=
  ⟨collapseRuns ((s.data.map Char.toUpper).dropWhile Char.isWhitespace)⟩

/-! ### Basic facts about the character primitives -/

theorem toNat_ofNat_valid {n : Nat} (h : n < 55296) : (Char.ofNat n).toNat = n := by
  unfold Char.ofNat
  rw [dif_pos (Or.inl h : n.isValidChar)]
  rfl

theorem toUpper_idem (c : Char) : c.toUpper.toUpper = c.toUpper := by
  unfold Char.toUpper
  by_cases h : c.toNat ≥ 97 ∧ c.toNat ≤ 122
  · rw [if_pos h]
    have hv : (Char.ofNat (c.toNat - 32)).toNat = c.toNat - 32 :=
      toNat_ofNat_valid (by omega)
    rw [if_neg (by omega)]
  · rw [if_neg h, if_neg h]

/-! ### The split/join pipeline versus the run-collapsing description -/

theorem splitAux_some (l : List Char) : ∀ w : List Char,
    splitAux (some w) l =
      (w.reverse ++ l.takeWhile (fun d => !d.isWhitespace)) ::
        splitAux none (l.dropWhile (fun d => !d.isWhitespace)) := by
  induction l with
  | nil => intro w; simp [splitAux]
  | cons c cs ih =>
    intro w
    by_cases hc : c.isWhitespace
    · simp [splitAux, hc, List.takeWhile_cons, List.dropWhile_cons]
    · simp [splitAux, hc, ih (c :: w), List.takeWhile_cons, List.dropWhile_cons]

theorem splitAux_none_eq_nil_iff (l : List Char) :
    splitAux none l = [] ↔ l.dropWhile Char.isWhitespace = [] := by
  induction l with
  | nil => simp [splitAux]
  | cons c cs ih =>
    by_cases hc : c.isWhitespace
    · simpa [splitAux, hc, List.dropWhile_cons] using ih
    · simp [splitAux, hc, List.dropWhile_cons, splitAux_some]

theorem collapseRuns_word (m : List Char) :
    collapseRuns m =
      m.takeWhile (fun d => !d.isWhitespace) ++
        collapseRuns (m.dropWhile (fun d => !d.isWhitespace)) := by
  induction m with
  | nil => simp [collapseRuns]
  | cons c cs ih =>
    by_cases hc : c.isWhitespace
    · rw [List.takeWhile_cons, List.dropWhile_cons]
      simp [hc]
    · rw [collapseRuns, if_neg hc, List.takeWhile_cons, List.dropWhile_cons]
      simp [hc, ih]

theorem collapseRuns_all_ws {r : List Char}
    (h : r.dropWhile Char.isWhitespace = []) : collapseRuns r = [] := by
  cases r with
  | nil => simp [collapseRuns]
  | cons e es =>
    rw [List.dropWhile_cons] at h
    by_cases he : e.isWhitespace
    · rw [collapseRuns, if_pos he]
      rw [if_pos he] at h
      rw [h]
    · rw [if_neg he] at h
      exact absurd h (by simp)

theorem collapseRuns_sep {e : Char} {es d : List Char} {dd : Char} (he : e.isWhitespace)
    (h : es.dropWhile Char.isWhitespace = dd :: d) :
    collapseRuns (e :: es) = '_' :: collapseRuns (dd :: d) := by
  rw [collapseRuns, if_pos he, h]

theorem ws_head_of_dropWhile_q {cs : List Char} {e : Char} {es : List Char}
    (h : cs.dropWhile (fun d => !d.isWhitespace) = e :: es) :
    e.isWhitespace = true := by
  induction cs with
  | nil => exact absurd h (by simp)
  | cons a as ih =>
    rw [List.dropWhile_cons] at h
    by_cases ha : a.isWhitespace
    · rw [if_neg (by simp [ha])] at h
      cases h
      exact ha
    · rw [if_pos (by simp [ha])] at h
      exact ih h

theorem joinUnderscore_splitAux : ∀ l : List Char,
    joinUnderscore (splitAux none l) = collapseRuns (l.dropWhile Char.isWhitespace)
  | [] => by simp [splitAux, collapseRuns, joinUnderscore]
  | c :: cs => by
    by_cases hc : c.isWhitespace
    · rw [show splitAux none (c :: cs) = splitAux none cs by simp [splitAux, hc]]
      rw [joinUnderscore_splitAux cs]
      simp [List.dropWhile_cons, hc]
    · rw [show splitAux none (c :: cs) = splitAux (some [c]) cs by
        simp [splitAux, hc]]
      rw [splitAux_some]
      rw [List.dropWhile_cons, if_neg hc]
      rw [collapseRuns, if_neg hc]
      rw [collapseRuns_word cs]
      rcases h3 : splitAux none (cs.dropWhile (fun d => !d.isWhitespace))
        with _ | ⟨x, xs⟩
      · rw [collapseRuns_all_ws ((splitAux_none_eq_nil_iff _).mp h3)]
        simp [joinUnderscore]
      · have hrec : joinUnderscore
            (splitAux none (cs.dropWhile (fun d => !d.isWhitespace))) =
            collapseRuns ((cs.dropWhile (fun d => !d.isWhitespace)).dropWhile
              Char.isWhitespace) := by
          have hlen : (cs.dropWhile (fun d => !d.isWhitespace)).length <
              (c :: cs).length := by
            have hle :=
              (List.dropWhile_sublist (l := cs) (fun d => !d.isWhitespace)).length_le
            simpa using Nat.lt_succ_of_le hle
          exact joinUnderscore_splitAux (cs.dropWhile (fun d => !d.isWhitespace))
        have hrne : (cs.dropWhile (fun d => !d.isWhitespace)).dropWhile
            Char.isWhitespace ≠ [] := by
          intro hnil
          rw [(splitAux_none_eq_nil_iff _).mpr hnil] at h3
          exact List.noConfusion h3
        rcases hsep : (cs.dropWhile (fun d => !d.isWhitespace)).dropWhile
            Char.isWhitespace with _ | ⟨dd, dds⟩
        · exact absurd hsep hrne
        · have hrcs : collapseRuns (cs.dropWhile (fun d => !d.isWhitespace)) =
              '_' :: collapseRuns (dd :: dds) := by
            rcases hr2 : cs.dropWhile (fun d => !d.isWhitespace) with _ | ⟨e, es⟩
            · rw [hr2] at hsep
              exact absurd hsep (by simp)
            · have hwse : e.isWhitespace = true := ws_head_of_dropWhile_q hr2
              rw [hr2, List.dropWhile_cons, if_pos hwse] at hsep
              rw [hr2]
              exact collapseRuns_sep hwse hsep
          rw [hrcs]
          rw [h3, hsep] at hrec
          simp [joinUnderscore, hrec]
termination_by l => l.length
decreasing_by
  · simp
  · exact hlen

/-- The program's normalization (uppercase, split on whitespace, join with
underscores) computes exactly the spec's description of the stored name. -/
theorem normalizeName_eq_specNormalizeName (s : String) :
    normalizeName s = specNormalizeName s := by
  unfold normalizeName specNormalizeName pySplit
  rw [joinUnderscore_splitAux]

/-! ### Characters of a normalized name -/

theorem mem_splitAux_none : ∀ l : List Char, ∀ w ∈ splitAux none l, ∀ c ∈ w,
    c ∈ l ∧ c.isWhitespace = false
  | [] => by simp [splitAux]
  | a :: as => by
    intro w hw c hcw
    by_cases ha : a.isWhitespace
    · rw [show splitAux none (a :: as) = splitAux none as by simp [splitAux, ha]] at hw
      have := mem_splitAux_none as w hw c hcw
      exact ⟨List.mem_cons_of_mem a this.1, this.2⟩
    · rw [show splitAux none (a :: as) = splitAux (some [a]) as by
        simp [splitAux, ha]] at hw
      rw [splitAux_some] at hw
      rcases List.mem_cons.mp hw with hfirst | hrest
      · subst hfirst
        simp only [List.reverse_singleton, List.singleton_append] at hcw
        rcases List.mem_cons.mp hcw with hcd | htk
        · rw [hcd]
          exact ⟨List.mem_cons_self _ _, by simpa using ha⟩
        · refine ⟨List.mem_cons_of_mem a ((List.takeWhile_sublist _).mem htk), ?_⟩
          have := List.mem_takeWhile_imp htk
          simpa using this
      · have hlen : (as.dropWhile (fun d => !d.isWhitespace)).length <
            (a :: as).length := by
          have hle :=
            (List.dropWhile_sublist (l := as) (fun d => !d.isWhitespace)).length_le
          simpa using Nat.lt_succ_of_le hle
        have := mem_splitAux_none (as.dropWhile (fun d => !d.isWhitespace)) w hrest c hcw
        exact ⟨List.mem_cons_of_mem a ((List.dropWhile_sublist _).mem this.1), this.2⟩
termination_by l => l.length
decreasing_by
  · simp
  · exact hlen

theorem mem_joinUnderscore : ∀ ws' : List (List Char), ∀ c ∈ joinUnderscore ws',
    (∃ w ∈ ws', c ∈ w) ∨ c = '_'
  | [] => by simp [joinUnderscore]
  | [w] => by
    intro c hc
    rw [show joinUnderscore [w] = w from rfl] at hc
    exact Or.inl ⟨w, by simp, hc⟩
  | w :: v :: vs => by
    intro c hc
    rw [show joinUnderscore (w :: v :: vs) = w ++ '_' :: joinUnderscore (v :: vs)
      from rfl] at hc
    rcases List.mem_append.mp hc with hw | hrest
    · exact Or.inl ⟨w, by simp, hw⟩
    · rcases List.mem_cons.mp hrest with hu | hj
      · exact Or.inr hu
      · rcases mem_joinUnderscore (v :: vs) c hj with ⟨u, hu, hcu⟩ | h
        · exact Or.inl ⟨u, List.mem_cons_of_mem w hu, hcu⟩
        · exact Or.inr h

theorem mem_normalizeName {s : String} {c : Char} (h : c ∈ (normalizeName s).data) :
    c.toUpper = c ∧ c.isWhitespace = false := by
  unfold normalizeName pySplit at h
  rcases mem_joinUnderscore _ c h with ⟨w, hw, hcw⟩ | hu
  · obtain ⟨hmem, hws⟩ := mem_splitAux_none _ w hw c hcw
    obtain ⟨d, _, rfl⟩ := List.mem_map.mp hmem
    exact ⟨toUpper_idem d, hws⟩
  · subst hu
    exact ⟨by decide, by decide⟩

theorem map_toUpper_normalizeName (s : String) :
    (normalizeName s).data.map Char.toUpper = (normalizeName s).data :=
  List.map_congr_left (fun c hc => (mem_normalizeName hc).1) |>.trans
    (List.map_id _)

theorem upperStr_normalizeName (s : String) :
    upperStr (normalizeName s) = normalizeName s := by
  unfold upperStr
  rw [map_toUpper_normalizeName]

theorem splitAux_none_no_ws {m : List Char} (h : ∀ c ∈ m, c.isWhitespace = false) :
    splitAux none m = if m.isEmpty then [] else [m] := by
  cases m with
  | nil => simp [splitAux]
  | cons c cs =>
    have hc : c.isWhitespace = false := h c (List.mem_cons_self c cs)
    rw [show splitAux none (c :: cs) = splitAux (some [c]) cs by
      simp [splitAux, hc]]
    rw [splitAux_some]
    rw [List.takeWhile_eq_self_iff.mpr (fun x hx => by simp [h x (List.mem_cons_of_mem c hx)])]
    rw [List.dropWhile_eq_nil_iff.mpr (fun x hx => by simp [h x (List.mem_cons_of_mem c hx)])]
    simp [splitAux]

theorem normalizeName_idem (s : String) :
    normalizeName (normalizeName s) = normalizeName s := by
  show (⟨joinUnderscore (pySplit ((normalizeName s).data.map Char.toUpper))⟩ : String) =
    normalizeName s
  rw [map_toUpper_normalizeName]
  unfold pySplit
  rw [splitAux_none_no_ws (fun c hc => (mem_normalizeName hc).2)]
  rcases hdata : (normalizeName s).data with _ | ⟨a, as⟩
  · exact (congrArg String.mk hdata).symm
  · exact (congrArg String.mk hdata).symm

/-! ### Aggregation and Metrics (from `metrics.py`) -/

/-- Embeds the `Aggregation(str, Enum)` closed enumeration. -/
inductive Aggregation where
  | LAST
  | MAX
  | MEAN
  | MIN
  | SUM
deriving DecidableEq

/-- The string value of an `Aggregation` member; the class subclasses `str`,
so concatenating a member concatenates this value. -/
def Aggregation.toStr : Aggregation → String
  | .LAST => "LAST"
  | .MAX => "MAX"
  | .MEAN => "MEAN"
  | .MIN => "MIN"
  | .SUM => "SUM"

/-- Embeds the stored fields of the `Metrics` pydantic model. -/
structure Metrics where
  name : String
  unit : String
  is_cumulative : Bool
  aggregation : Option Aggregation
deriving DecidableEq

/-- Embeds `Metrics(name=..., unit=..., is_cumulative=..., aggregation=...)`:
pydantic runs the `upper` validator on `name` at construction, so every
`Metrics` object the program holds carries a normalized name. -/
def mkMetrics (name unit : String) (is_cumulative : Bool)
    (aggregation : Option Aggregation) : Metrics :=
  { name := normalizeName name
    unit := unit
    is_cumulative := is_cumulative
    aggregation := aggregation }

/-- Embeds the `full_name` property:
`name + "_" + aggregation` when the aggregation is set, else `name`. -/
def Metrics.full_name (m : Metrics) : String :=
  match m.aggregation with
  | some a => m.name ++ "_" ++ a.toStr
  | none => m.name

/-- Embeds the `table_column` property. -/
def Metrics.table_column (m : Metrics) : String :=
  if m.is_cumulative then "SUM" else "VALUE"

/-- Embeds the plain-dict representation produced by `Metrics.dict`.  The
`aggregation` field is `none` when the key is absent from the dict and
`some v` when the key is present with value `v`; `some none` would be the
key present with a `None` marker. -/
structure MetricsDict where
  name : String
  unit : String
  is_cumulative : Bool
  aggregation : Option (Option Aggregation)
deriving DecidableEq

/-- Embeds `Metrics.dict`: the full field dict, with the `aggregation` key
popped when its value is `None`. -/
def Metrics.dict (m : Metrics) : MetricsDict :=
  { name := m.name
    unit := m.unit
    is_cumulative := m.is_cumulative
    aggregation := match m.aggregation with
      | none => none
      | some a => some (some a) }

/-- Embeds `Metrics(**d, aggregation=a)`: constructing a metric from a dict
splat plus an explicit aggregation override.  When `d` already carries an
`aggregation` key the call raises `TypeError` (duplicate keyword argument),
embedded as `none`. -/
def metricsOfDictWithAgg (d : MetricsDict) (a : Aggregation) : Option Metrics :=
  match d.aggregation with
  | none => some (mkMetrics d.name d.unit d.is_cumulative (some a))
  | some _ => none

/-! ### The registry (from `metrics.py`) -/

/-- Embeds a `MetricsRegistry` instance: its `_metrics` dict (an
insertion-ordered association list) and its `_prefix` string. -/
structure MetricsRegistry where
  metrics : List (String × Metrics)
  pfx : String
deriving DecidableEq

/-- Embeds inserting `full_name ↦ m` into a Python dict: a repeated key
keeps its first-insertion position and takes the new value (last write
wins); a new key is appended. -/
def dictInsert (k : String) (m : Metrics) (d : List (String × Metrics)) :
    List (String × Metrics) :=
  if d.any (fun kv => kv.1 == k) then
    d.map (fun kv => if kv.1 == k then (k, m) else kv)
  else d ++ [(k, m)]

/-- Embeds the dict comprehension
`{metrics.full_name: metrics for metrics in metrics}`. -/
def buildDict (ms : List Metrics) : List (String × Metrics) :=
  ms.foldl (fun d m => dictInsert m.full_name m d) []

/-- Embeds `f"{prefix}" if prefix is not None else ""`. -/
def pfxString : Option String → String
  | some p => p
  | none => ""

/-- Embeds the f-string rendering of the original `prefix` argument inside
the collision error message; Python renders `None` as `"None"`. -/
def pfxRepr : Option String → String
  | some p => p
  | none => "None"

/-- Embeds `MetricsRegistry.__init__`.  The process-wide
`_registries_prefixes` dict is threaded explicitly as the insertion-ordered
list `st` of its keys.  The result carries either the constructed registry
or the raised `ValueError`'s message, together with the namespace state
after the call; `_add_prefix` runs only on the success path, so a raising
call returns `st` unchanged. -/
def mkRegistry (metrics : List Metrics) (p : Option String) (st : List String) :
    Except String MetricsRegistry × List String :=
  let dict := buildDict metrics
  let pfx := pfxString p
  if pfx ∈ st then
    (.error ("Prefix " ++ pfxRepr p ++
      " is already used. Please use a prefix different from " ++
      String.intercalate ", " st), st)
  else
    (.ok { metrics := dict, pfx := pfx }, st ++ [pfx])

/-- Embeds `MetricsRegistry.generate_registry_by_filtering`: uppercase the
requested names, keep the metrics whose full name occurs among them, and
construct a new registry with the given prefix. -/
def generate_registry_by_filtering (r : MetricsRegistry) (metrics : List String)
    (pfx : String) (st : List String) :
    Except String MetricsRegistry × List String :=
  let included := metrics.map upperStr
  let filtered := (r.metrics.filter (fun kv => included.contains kv.1)).map Prod.snd
  mkRegistry filtered (some pfx) st

/-- Embeds `MetricsRegistry.list_all_metrics_names` (dict keys in insertion
order). -/
def list_all_metrics_names (r : MetricsRegistry) : List String :=
  r.metrics.map Prod.fst

/-- First-match association-list lookup; on a dict embedding (distinct keys)
this is exactly Python dict indexing, with `none` embedding `KeyError`. -/
def lookupKey (k : String) : List (String × Metrics) → Option Metrics
  | [] => none
  | kv :: rest => if kv.1 = k then some kv.2 else lookupKey k rest

/-- Embeds `get_metrics_by_full_name`:
`self._metrics[str(full_name).upper()]`. -/
def get_metrics_by_full_name (r : MetricsRegistry) (full_name : String) :
    Option Metrics :=
  lookupKey (upperStr full_name) r.metrics

/-- Embeds the `Enum` created by `get_enum_from_metrics`: the enumeration's
type name and its (member name, member value) pairs. -/
structure DynEnum where
  ename : String
  members : List (String × String)
deriving DecidableEq

/-- Embeds `get_enum_from_metrics`: the Enum named `f"{prefix}Metrics"` whose
members are `(name, name)` for each full name in the registry. -/
def get_enum_from_metrics (r : MetricsRegistry) : DynEnum :=
  { ename := r.pfx ++ "Metrics"
    members := r.metrics.map (fun kv => (kv.1, kv.1)) }

/-! ### Module-level bootstrap of `metrics.py` -/

def TEMPERATURE : Metrics := mkMetrics "temperature" "C" false none

def TEMPERATURE_MIN : Metrics :=
  (metricsOfDictWithAgg TEMPERATURE.dict Aggregation.MIN).getD TEMPERATURE

def TEMPERATURE_MAX : Metrics :=
  (metricsOfDictWithAgg TEMPERATURE.dict Aggregation.MAX).getD TEMPERATURE

def TEMPERATURE_MEAN : Metrics :=
  (metricsOfDictWithAgg TEMPERATURE.dict Aggregation.MEAN).getD TEMPERATURE

def TEMPERATURE_LAST : Metrics :=
  (metricsOfDictWithAgg TEMPERATURE.dict Aggregation.LAST).getD TEMPERATURE

def RAIN_FALL : Metrics := mkMetrics "rain fall" "C" true none

def WIND_SPEED_2M : Metrics := mkMetrics "wind speed at 2m" "km/h" false none

/-- The process starts with an empty prefix-namespace dict. -/
def stStart : List String := []

/-- The construction of `MAIN_METRICS_REGISTRY` (no prefix argument). -/
def mainRegistryStep : Except String MetricsRegistry × List String :=
  mkRegistry [TEMPERATURE, RAIN_FALL, WIND_SPEED_2M] none stStart

/-- Unwraps a construction that did not raise; the fallback is never reached
for the module-level constructions (proved below). -/
def registryOf (e : Except String MetricsRegistry) : MetricsRegistry :=
  match e with
  | .ok r => r
  | .error _ => { metrics := [], pfx := "" }

def MAIN_METRICS_REGISTRY : MetricsRegistry := registryOf mainRegistryStep.1

def stAfterMain : List String := mainRegistryStep.2

/-- The construction of `METRICS_AND_AGGREGATION_REGISTRY`
(prefix "Aggregated"). -/
def aggRegistryStep : Except String MetricsRegistry × List String :=
  mkRegistry [TEMPERATURE_MIN, TEMPERATURE_MAX, TEMPERATURE_MEAN, TEMPERATURE_LAST]
    (some "Aggregated") stAfterMain

def METRICS_AND_AGGREGATION_REGISTRY : MetricsRegistry :=
  registryOf aggRegistryStep.1

def stAfterAgg : List String := aggRegistryStep.2

/-! ### Tabular time series (from `dataframes.py`)

A DataFrame cell is dynamically typed; the `Timeseries` pandera schema
checks, per row, that `metrics` is a string drawn from the main registry's
full names, that `timestamp` is a datetime and that `value` is a float.
Datetime and float payloads are inert in this component (only type-checked
and copied), so they are embedded as abstract integer payloads. -/

inductive Cell where
  | str : String → Cell
  | time : Int → Cell
  | num : Int → Cell
deriving DecidableEq

/-- A row of the time-series table: (metrics, timestamp, value). -/
structure Row where
  metrics : Cell
  timestamp : Cell
  value : Cell
deriving DecidableEq

/-- The reference name list captured by the `Timeseries` schema at class
creation: `MAIN_METRICS_REGISTRY.list_all_metrics_names()`. -/
def mainNames : List String := list_all_metrics_names MAIN_METRICS_REGISTRY

/-- One row's check against the `Timeseries` schema: `metrics` must be a
string in the captured allow-list, `timestamp` a datetime, `value` a
float. -/
def rowSchemaOK (allowed : List String) (r : Row) : Bool :=
  (match r.metrics with
    | .str s => allowed.contains s
    | _ => false) &&
  (match r.timestamp with
    | .time _ => true
    | _ => false) &&
  (match r.value with
    | .num _ => true
    | _ => false)

/-- The schema-violation error raised by `pandera.check_input` before the
decorated function body runs; it enumerates the offending rows. -/
structure SchemaError where
  failureCases : List Row
deriving DecidableEq

/-- Embeds the `@pandera.check_input(schema=Timeseries)` validation gate:
the whole input is validated up front, and a violation raises `SchemaError`
carrying the offending rows, with no partial result. -/
def checkInput (rows : List Row) : Except SchemaError Unit :=
  let bad := rows.filter (fun r => !rowSchemaOK mainNames r)
  if bad.isEmpty then .ok () else .error { failureCases := bad }

/-- Embeds the membership test `df["metrics"].isin(metrics)` for one row. -/
def rowInMetrics (allow : List String) (r : Row) : Bool :=
  match r.metrics with
  | .str s => allow.contains s
  | _ => false

/-- Embeds `filter_metrics`: validate against the `Timeseries` schema, then
`assign` the boolean membership column, `query` on it, and `drop` it. -/
def filter_metrics (rows : List Row) (metrics : List String) :
    Except SchemaError (List Row) :=
  match checkInput rows with
  | .error e => .error e
  | .ok () =>
      .ok ((((rows.map (fun r => (r, rowInMetrics metrics r))).filter
        (fun p => p.2)).map Prod.fst))

/-! ### Association-list and dict lemmas -/

theorem lookupKey_eq_none_iff (k : String) (l : List (String × Metrics)) :
    lookupKey k l = none ↔ k ∉ l.map Prod.fst := by
  induction l with
  | nil => simp [lookupKey]
  | cons kv rest ih =>
    rw [List.map_cons, List.mem_cons]
    by_cases h : kv.1 = k
    · rw [lookupKey, if_pos h]
      simp [h]
    · rw [lookupKey, if_neg h, ih]
      constructor
      · intro hnot hor
        rcases hor with heq | hmem
        · exact h heq.symm
        · exact hnot hmem
      · intro hnot hmem
        exact hnot (Or.inr hmem)

theorem dictInsert_keys (k : String) (m : Metrics) (d : List (String × Metrics)) :
    (dictInsert k m d).map Prod.fst =
      if d.any (fun kv => kv.1 == k) then d.map Prod.fst
      else d.map Prod.fst ++ [k] := by
  unfold dictInsert
  by_cases h : d.any (fun kv => kv.1 == k)
  · rw [if_pos h, if_pos h, List.map_map]
    refine List.map_congr_left ?_
    intro kv _
    by_cases hk : kv.1 = k
    · simp [hk]
    · simp [hk]
  · rw [if_neg h, if_neg h]
    simp

theorem dictInsert_nodup {k : String} {m : Metrics} {d : List (String × Metrics)}
    (h : (d.map Prod.fst).Nodup) : ((dictInsert k m d).map Prod.fst).Nodup := by
  rw [dictInsert_keys]
  by_cases hc : d.any (fun kv => kv.1 == k)
  · rw [if_pos hc]; exact h
  · rw [if_neg hc]
    have hk : k ∉ d.map Prod.fst := by
      intro hmem
      rcases List.mem_map.mp hmem with ⟨kv, hkv, hfst⟩
      exact hc (List.any_eq_true.mpr ⟨kv, hkv, by simp [hfst]⟩)
    rw [List.nodup_append]
    refine ⟨h, List.nodup_singleton k, ?_⟩
    intro x hx hxk
    rw [List.mem_singleton] at hxk
    subst hxk
    exact hk hx

theorem foldl_dictInsert_nodup : ∀ (ms : List Metrics) (d : List (String × Metrics)),
    (d.map Prod.fst).Nodup →
    (((ms.foldl (fun d m => dictInsert m.full_name m d) d)).map Prod.fst).Nodup
  | [], _, h => h
  | m :: rest, d, h =>
    foldl_dictInsert_nodup rest (dictInsert m.full_name m d) (dictInsert_nodup h)

theorem buildDict_keys_nodup (ms : List Metrics) :
    ((buildDict ms).map Prod.fst).Nodup :=
  foldl_dictInsert_nodup ms [] (by simp)

theorem mem_dictInsert {k : String} {m : Metrics} {d : List (String × Metrics)}
    {kv : String × Metrics} (h : kv ∈ dictInsert k m d) :
    kv ∈ d ∨ kv = (k, m) := by
  unfold dictInsert at h
  by_cases hc : d.any (fun kv => kv.1 == k)
  · rw [if_pos hc] at h
    rcases List.mem_map.mp h with ⟨kv', hkv', heq⟩
    by_cases hk : kv'.1 = k
    · rw [if_pos (by simp [hk])] at heq
      exact Or.inr heq.symm
    · rw [if_neg (by simp [hk])] at heq
      exact Or.inl (heq ▸ hkv')
  · rw [if_neg hc] at h
    rcases List.mem_append.mp h with h1 | h2
    · exact Or.inl h1
    · exact Or.inr (List.mem_singleton.mp h2)

theorem foldl_dictInsert_entries : ∀ (ms : List Metrics) (d : List (String × Metrics)),
    (∀ kv ∈ d, kv.1 = kv.2.full_name) →
    ∀ kv ∈ ms.foldl (fun d m => dictInsert m.full_name m d) d, kv.1 = kv.2.full_name
  | [], _, h => h
  | m :: rest, d, h =>
    foldl_dictInsert_entries rest (dictInsert m.full_name m d) (by
      intro kv hkv
      rcases mem_dictInsert hkv with hold | hnew
      · exact h kv hold
      · rw [hnew])

theorem buildDict_entries (ms : List Metrics) :
    ∀ kv ∈ buildDict ms, kv.1 = kv.2.full_name :=
  foldl_dictInsert_entries ms [] (by simp)

theorem foldl_dictInsert_of_fresh :
    ∀ (ms : List Metrics) (d : List (String × Metrics)),
    (∀ m ∈ ms, d.any (fun kv => kv.1 == m.full_name) = false) →
    (ms.map Metrics.full_name).Nodup →
    ms.foldl (fun d m => dictInsert m.full_name m d) d =
      d ++ ms.map (fun m => (m.full_name, m))
  | [], d, _, _ => by simp
  | m :: rest, d, hfresh, hnodup => by
    have hstep : dictInsert m.full_name m d = d ++ [(m.full_name, m)] := by
      unfold dictInsert
      rw [if_neg (by simp [hfresh m (List.mem_cons_self m rest)])]
    have hrest : ∀ m' ∈ rest,
        (d ++ [(m.full_name, m)]).any (fun kv => kv.1 == m'.full_name) = false := by
      intro m' hm'
      rw [List.any_append]
      have h1 : d.any (fun kv => kv.1 == m'.full_name) = false :=
        hfresh m' (List.mem_cons_of_mem m hm')
      have h2 : m.full_name ≠ m'.full_name := by
        intro hEq
        have : m.full_name ∈ rest.map Metrics.full_name :=
          List.mem_map.mpr ⟨m', hm', hEq.symm⟩
        exact (List.nodup_cons.mp hnodup).1 this
      simp [h1, h2]
    have ih := foldl_dictInsert_of_fresh rest (d ++ [(m.full_name, m)]) hrest
      (List.nodup_cons.mp hnodup).2
    simp only [List.foldl_cons, hstep, ih, List.map_cons]
    simp

theorem buildDict_of_nodup {ms : List Metrics}
    (h : (ms.map Metrics.full_name).Nodup) :
    buildDict ms = ms.map (fun m => (m.full_name, m)) := by
  have := foldl_dictInsert_of_fresh ms [] (by simp) h
  simpa [buildDict] using this

/-! ### Uppercase stability of stored names and full names -/

theorem upperStr_append (a b : String) :
    upperStr (a ++ b) = upperStr a ++ upperStr b := by
  unfold upperStr
  show (⟨(a.data ++ b.data).map Char.toUpper⟩ : String) =
    ⟨a.data.map Char.toUpper ++ b.data.map Char.toUpper⟩
  rw [List.map_append]

theorem upperStr_toStr (a : Aggregation) : upperStr a.toStr = a.toStr := by
  cases a <;> decide

theorem upperStr_full_name {m : Metrics} (hm : upperStr m.name = m.name) :
    upperStr m.full_name = m.full_name := by
  unfold Metrics.full_name
  cases ha : m.aggregation with
  | none => exact hm
  | some a =>
    rw [upperStr_append, upperStr_append, hm, upperStr_toStr]
    rw [show upperStr "_" = "_" from by decide]

theorem mkMetrics_name_upper (raw u : String) (b : Bool) (a : Option Aggregation) :
    upperStr (mkMetrics raw u b a).name = (mkMetrics raw u b a).name :=
  upperStr_normalizeName raw

/-! ### Well-formed registries -/

/-- The invariant enjoyed by every registry the program can construct: the
dict maps each full name to a metric bearing that full name, the stored
names are fixed points of uppercasing (every stored name passed the `upper`
validator), and the dict's keys are distinct. -/
def WFRegistry (r : MetricsRegistry) : Prop :=
  (∀ kv ∈ r.metrics, kv.1 = kv.2.full_name ∧ upperStr kv.1 = kv.1) ∧
    (r.metrics.map Prod.fst).Nodup

instance (r : MetricsRegistry) : Decidable (WFRegistry r) := by
  unfold WFRegistry
  infer_instance

theorem mkRegistry_ok {ms : List Metrics} {p : Option String} {st : List String}
    (h : pfxString p ∉ st) :
    mkRegistry ms p st = (.ok ⟨buildDict ms, pfxString p⟩, st ++ [pfxString p]) := by
  unfold mkRegistry
  rw [if_neg h]

theorem mkRegistry_wf {ms : List Metrics} {p : Option String} {st st' : List String}
    {r : MetricsRegistry}
    (hval : ∀ m ∈ ms, upperStr m.name = m.name)
    (h : mkRegistry ms p st = (.ok r, st')) : WFRegistry r := by
  unfold mkRegistry at h
  by_cases hp : pfxString p ∈ st
  · rw [if_pos hp] at h
    exact absurd (congrArg Prod.fst h) (by simp)
  · rw [if_neg hp] at h
    have hr : r = ⟨buildDict ms, pfxString p⟩ := by
      have := congrArg Prod.fst h
      simp at this
      exact this.symm
    subst hr
    refine ⟨?_, buildDict_keys_nodup ms⟩
    intro kv hkv
    have hkey := buildDict_entries ms kv hkv
    refine ⟨hkey, ?_⟩
    have hvmem : kv.2 ∈ ms := ?_
    · rw [hkey]
      exact upperStr_full_name (hval kv.2 hvmem)
    · have : ∀ kv ∈ buildDict ms, kv.2 ∈ ms := by
        have haux : ∀ (l : List Metrics) (d : List (String × Metrics)),
            (∀ kv ∈ d, kv.2 ∈ ms) → (∀ m ∈ l, m ∈ ms) →
            ∀ kv ∈ l.foldl (fun d m => dictInsert m.full_name m d) d, kv.2 ∈ ms := by
          intro l
          induction l with
          | nil => intro d hd _ kv hkv; exact hd kv hkv
          | cons m rest ih =>
            intro d hd hl kv hkv
            refine ih (dictInsert m.full_name m d) ?_
              (fun m' hm' => hl m' (List.mem_cons_of_mem m hm')) kv hkv
            intro kv' hkv'
            rcases mem_dictInsert hkv' with hold | hnew
            · exact hd kv' hold
            · rw [hnew]
              exact hl m (List.mem_cons_self m rest)
        exact haux ms [] (by simp) (fun m hm => hm)
      exact this kv hkv

/-! ### The filtered-registry computation -/

theorem contains_map_upper_eq {names : List String} {k : String}
    (hfix : upperStr k = k) :
    (names.map upperStr).contains k =
      names.any (fun n => upperStr n == upperStr k) := by
  apply Bool.eq_iff_iff.mpr
  rw [List.contains_iff_exists_mem_beq, List.any_eq_true]
  constructor
  · rintro ⟨a, ha, hbeq⟩
    rcases List.mem_map.mp ha with ⟨n, hn, rfl⟩
    exact ⟨n, hn, by rw [hfix]; exact beq_iff_eq.mpr (eq_of_beq hbeq).symm⟩
  · rintro ⟨n, hn, hbeq⟩
    refine ⟨upperStr n, List.mem_map.mpr ⟨n, hn, rfl⟩, ?_⟩
    rw [hfix] at hbeq
    exact beq_iff_eq.mpr (eq_of_beq hbeq).symm

theorem buildDict_filtered {r : MetricsRegistry} (hwf : WFRegistry r)
    (pred : String × Metrics → Bool) :
    buildDict ((r.metrics.filter pred).map Prod.snd) = r.metrics.filter pred := by
  have hkeys : ∀ kv ∈ r.metrics.filter pred, kv.1 = kv.2.full_name :=
    fun kv hkv => (hwf.1 kv (List.mem_filter.mp hkv).1).1
  have hmapfn : ((r.metrics.filter pred).map Prod.snd).map Metrics.full_name =
      (r.metrics.filter pred).map Prod.fst := by
    rw [List.map_map]
    exact List.map_congr_left (fun kv hkv => (hkeys kv hkv).symm)
  have hnodup : (((r.metrics.filter pred).map Prod.snd).map Metrics.full_name).Nodup := by
    rw [hmapfn]
    exact ((List.filter_sublist r.metrics).map Prod.fst).nodup hwf.2
  rw [buildDict_of_nodup hnodup, List.map_map]
  have : ∀ kv ∈ r.metrics.filter pred,
      ((fun m => (m.full_name, m)) ∘ Prod.snd) kv = kv := by
    intro kv hkv
    show (kv.2.full_name, kv.2) = kv
    rw [← hkeys kv hkv]
  rw [List.map_congr_left this]
  simp

theorem generate_by_filtering_ok {r : MetricsRegistry} {names : List String}
    {p : String} {st : List String} (hwf : WFRegistry r) (hp : p ∉ st) :
    generate_registry_by_filtering r names p st =
      (.ok ⟨r.metrics.filter (fun kv => names.any (fun n => upperStr n == upperStr kv.1)), p⟩,
        st ++ [p]) := by
  unfold generate_registry_by_filtering
  rw [mkRegistry_ok (p := some p) hp]
  rw [buildDict_filtered hwf]
  rw [List.filter_congr
    (fun kv hkv => contains_map_upper_eq (hwf.1 kv hkv).2)]
  rfl

/-! ### Distinctness of full names -/

theorem toStr_injective : ∀ a1 a2 : Aggregation, a1 ≠ a2 → a1.toStr ≠ a2.toStr := by
  intro a1 a2
  cases a1 <;> cases a2 <;> decide

theorem toStr_length_pos (a : Aggregation) : 1 ≤ a.toStr.length := by
  cases a <;> decide

theorem string_append_right_cancel {x s1 s2 : String} (h : x ++ s1 = x ++ s2) :
    s1 = s2 := by
  have hdata : x.data ++ s1.data = x.data ++ s2.data := congrArg String.data h
  exact congrArg String.mk (List.append_cancel_left hdata)

theorem full_name_ne_of_agg_ne {nm u : String} {b : Bool} {a1 a2 : Option Aggregation}
    (h : a1 ≠ a2) :
    (Metrics.mk nm u b a1).full_name ≠ (Metrics.mk nm u b a2).full_name := by
  cases a1 with
  | none =>
    cases a2 with
    | none => exact absurd rfl h
    | some a =>
      show nm ≠ nm ++ "_" ++ a.toStr
      intro hEq
      have hlen := congrArg String.length hEq
      rw [String.length_append, String.length_append] at hlen
      have hpos := toStr_length_pos a
      have h1 : ("_" : String).length = 1 := rfl
      omega
  | some a =>
    cases a2 with
    | none =>
      show nm ++ "_" ++ a.toStr ≠ nm
      intro hEq
      have hlen := congrArg String.length hEq
      rw [String.length_append, String.length_append] at hlen
      have hpos := toStr_length_pos a
      have h1 : ("_" : String).length = 1 := rfl
      omega
    | some a' =>
      show nm ++ "_" ++ a.toStr ≠ nm ++ "_" ++ a'.toStr
      intro hEq
      have hcancel : a.toStr = a'.toStr := by
        apply string_append_right_cancel (x := nm ++ "_")
        simpa [String.ext_iff] using congrArg String.data hEq
      exact toStr_injective a a' (fun hx => h (by rw [hx])) hcancel

/-! ### The assign/query/drop pipeline -/

theorem assign_query_drop (rows : List Row) (f : Row → Bool) :
    ((rows.map (fun r => (r, f r))).filter (fun p => p.2)).map Prod.fst =
      rows.filter f := by
  induction rows with
  | nil => simp
  | cons r rest ih =>
    by_cases hf : f r
    · simp [hf, ih, List.filter_cons]
    · simp [hf, ih, List.filter_cons]

theorem checkInput_ok_iff (rows : List Row) :
    checkInput rows = .ok () ↔ ∀ r ∈ rows, rowSchemaOK mainNames r = true := by
  unfold checkInput
  by_cases hb : (rows.filter (fun r => !rowSchemaOK mainNames r)).isEmpty
  · rw [if_pos hb]
    simp only [true_iff]
    intro r hr
    have := List.isEmpty_iff.mp hb
    by_contra hok
    have hf : rowSchemaOK mainNames r = false := Bool.eq_false_iff.mpr hok
    have hmem : r ∈ rows.filter (fun r => !rowSchemaOK mainNames r) :=
      List.mem_filter.mpr ⟨hr, by simp [hf]⟩
    rw [this] at hmem
    exact List.not_mem_nil r hmem
  · rw [if_neg hb]
    constructor
    · intro h
      exact absurd h (by simp)
    · intro hall
      exfalso
      apply hb
      rw [List.isEmpty_iff, List.filter_eq_nil_iff]
      intro r hr
      simp [hall r hr]

theorem filter_metrics_ok {rows : List Row} {allow : List String}
    (hvalid : ∀ r ∈ rows, rowSchemaOK mainNames r = true) :
    filter_metrics rows allow = .ok (rows.filter (rowInMetrics allow)) := by
  unfold filter_metrics
  rw [(checkInput_ok_iff rows).mpr hvalid]
  rw [assign_query_drop]

theorem filter_metrics_error_iff (rows : List Row) (allow : List String) :
    (∃ e, filter_metrics rows allow = .error e) ↔
      ∃ r ∈ rows, rowSchemaOK mainNames r = false := by
  constructor
  · rintro ⟨e, he⟩
    by_contra hall
    push_neg at hall
    have hvalid : ∀ r ∈ rows, rowSchemaOK mainNames r = true := by
      intro r hr
      cases hb2 : rowSchemaOK mainNames r with
      | false => exact absurd hb2 (hall r hr)
      | true => rfl
    rw [filter_metrics_ok hvalid] at he
    exact Except.noConfusion he
  · rintro ⟨r, hr, hbad⟩
    unfold filter_metrics checkInput
    have hne : ¬(rows.filter (fun r => !rowSchemaOK mainNames r)).isEmpty := by
      rw [List.isEmpty_iff]
      intro hnil
      have hmem : r ∈ rows.filter (fun r => !rowSchemaOK mainNames r) :=
        List.mem_filter.mpr ⟨hr, by simp [hbad]⟩
      rw [hnil] at hmem
      exact List.not_mem_nil r hmem
    rw [if_neg hne]
    exact ⟨_, rfl⟩

theorem string_append_left_cancel {s1 s2 x : String} (h : s1 ++ x = s2 ++ x) :
    s1 = s2 := by
  have hdata : s1.data ++ x.data = s2.data ++ x.data := congrArg String.data h
  exact congrArg String.mk (List.append_cancel_right hdata)

/-! ## The claims -/

/-- C1: constructing a registry — directly or via
`generate_registry_by_filtering`, and including a second registry with the
default empty prefix — always fails with the prefix-uniqueness `ValueError`
when the (stringified) prefix is already in the global namespace, and the
error message names all currently-used prefixes (it ends with their
comma-separated join). -/
theorem c1_collision_always_fails :
    (∀ (ms : List Metrics) (p : Option String) (st : List String),
      pfxString p ∈ st →
      mkRegistry ms p st =
        (.error ("Prefix " ++ pfxRepr p ++
          " is already used. Please use a prefix different from " ++
          String.intercalate ", " st), st)) ∧
    (∀ (r : MetricsRegistry) (names : List String) (p : String) (st : List String),
      p ∈ st →
      generate_registry_by_filtering r names p st =
        (.error ("Prefix " ++ p ++
          " is already used. Please use a prefix different from " ++
          String.intercalate ", " st), st)) ∧
    (∀ (ms1 ms2 : List Metrics) (st st' : List String) (r : MetricsRegistry),
      mkRegistry ms1 none st = (.ok r, st') →
      ∃ msg, mkRegistry ms2 none st' = (.error msg, st')) := by
  have hbase : ∀ (ms : List Metrics) (p : Option String) (st : List String),
      pfxString p ∈ st →
      mkRegistry ms p st =
        (.error ("Prefix " ++ pfxRepr p ++
          " is already used. Please use a prefix different from " ++
          String.intercalate ", " st), st) := by
    intro ms p st h
    unfold mkRegistry
    rw [if_pos h]
  refine ⟨hbase, ?_, ?_⟩
  · intro r names p st h
    unfold generate_registry_by_filtering
    exact hbase _ (some p) st h
  · intro ms1 ms2 st st' r h
    unfold mkRegistry at h
    by_cases hp : pfxString none ∈ st
    · rw [if_pos hp] at h
      exact absurd (congrArg Prod.fst h) (by simp)
    · rw [if_neg hp] at h
      have hst' : st' = st ++ [""] := by
        have := congrArg Prod.snd h
        simpa [pfxString] using this.symm
      have hmem : pfxString none ∈ st' := by
        rw [hst']
        simp [pfxString]
      exact ⟨_, hbase ms2 none st' hmem⟩

theorem c1_collision_always_fails_witness :
    mkRegistry [] none [""] =
      (.error "Prefix None is already used. Please use a prefix different from ",
        [""]) := by
  have h := c1_collision_always_fails.1 [] none [""] (by decide)
  exact h

/-- C10: a construction that fails on a prefix collision leaves the global
prefix namespace exactly as it was (nothing is registered on the failure
path), so retrying on the post-failure state with a fresh prefix succeeds
exactly as it would have on the original state. -/
theorem c10_failed_construction_registers_nothing (ms : List Metrics)
    (p : Option String) (st : List String) (h : pfxString p ∈ st) :
    (mkRegistry ms p st).2 = st ∧
    (∃ e, (mkRegistry ms p st).1 = .error e) ∧
    (∀ q : String, q ∉ st →
      mkRegistry ms (some q) ((mkRegistry ms p st).2) =
        (.ok ⟨buildDict ms, q⟩, st ++ [q])) := by
  have hfail : (mkRegistry ms p st).2 = st ∧ ∃ e, (mkRegistry ms p st).1 = .error e := by
    unfold mkRegistry
    rw [if_pos h]
    exact ⟨rfl, _, rfl⟩
  refine ⟨hfail.1, hfail.2, ?_⟩
  intro q hq
  rw [hfail.1]
  exact mkRegistry_ok (p := some q) hq

theorem c10_failed_construction_registers_nothing_witness :
    (mkRegistry [] none [""]).2 = [""] ∧
      mkRegistry [] (some "B") ((mkRegistry [] none [""]).2) =
        (.ok ⟨[], "B"⟩, ["", "B"]) := by
  have h := c10_failed_construction_registers_nothing [] none [""] (by decide)
  exact ⟨h.1, h.2.2 "B" (by decide)⟩

/-- C4: with a fresh prefix, `generate_registry_by_filtering` on a
well-formed registry succeeds and returns a registry holding exactly the
entries of the source whose full name matches some requested name
case-insensitively (both sides uppercased); a requested name matching no
entry is silently dropped — appending it to the request list does not change
the result, and no error is raised. -/
theorem c4_filtering_selects_matching (r : MetricsRegistry) (names : List String)
    (p : String) (st : List String) (hwf : WFRegistry r) (hp : p ∉ st) :
    (∃ r' : MetricsRegistry,
      (generate_registry_by_filtering r names p st).1 = .ok r' ∧
      r'.metrics = r.metrics.filter
        (fun kv => names.any (fun n => upperStr n == upperStr kv.1))) ∧
    (∀ n : String, (∀ kv ∈ r.metrics, upperStr n ≠ kv.1) →
      generate_registry_by_filtering r (names ++ [n]) p st =
        generate_registry_by_filtering r names p st) := by
  constructor
  · refine ⟨⟨r.metrics.filter
      (fun kv => names.any (fun n => upperStr n == upperStr kv.1)), p⟩, ?_, rfl⟩
    rw [generate_by_filtering_ok hwf hp]
  · intro n hn
    have hfilter : r.metrics.filter
        (fun kv => (names.map upperStr ++ [upperStr n]).contains kv.1) =
        r.metrics.filter (fun kv => (names.map upperStr).contains kv.1) := by
      apply List.filter_congr
      intro kv hkv
      apply Bool.eq_iff_iff.mpr
      rw [List.elem_iff, List.elem_iff]
      rw [List.mem_append, List.mem_singleton]
      have : kv.1 ≠ upperStr n := fun hEq => hn kv hkv hEq.symm
      simp [this]
    unfold generate_registry_by_filtering
    simp only [List.map_append, List.map_singleton]
    rw [hfilter]

theorem c4_filtering_selects_matching_witness :
    ∃ r' : MetricsRegistry,
      (generate_registry_by_filtering METRICS_AND_AGGREGATION_REGISTRY
        ["TEMPERATURE_MIN", "TEMPERATURE_MAX"] "Partial" stAfterAgg).1 = .ok r' ∧
      r'.metrics = METRICS_AND_AGGREGATION_REGISTRY.metrics.filter
        (fun kv => (["TEMPERATURE_MIN", "TEMPERATURE_MAX"] : List String).any
          (fun n => upperStr n == upperStr kv.1)) :=
  (c4_filtering_selects_matching METRICS_AND_AGGREGATION_REGISTRY
    ["TEMPERATURE_MIN", "TEMPERATURE_MAX"] "Partial" stAfterAgg
    (by decide) (by decide)).1

/-- C5: `get_metrics_by_full_name` uppercases its input before the dict
lookup, so any two inputs equal up to case resolve identically, and the
lookup fails (Python `KeyError`, embedded as `none`) exactly when the
uppercased input is not among the registered full names. -/
theorem c5_lookup_case_insensitive (r : MetricsRegistry) (s t : String)
    (h : upperStr s = upperStr t) :
    get_metrics_by_full_name r s = get_metrics_by_full_name r t ∧
    (get_metrics_by_full_name r s = none ↔
      upperStr s ∉ r.metrics.map Prod.fst) := by
  constructor
  · unfold get_metrics_by_full_name
    rw [h]
  · exact lookupKey_eq_none_iff _ _

theorem c5_lookup_case_insensitive_witness :
    get_metrics_by_full_name METRICS_AND_AGGREGATION_REGISTRY "temperature_min" =
      get_metrics_by_full_name METRICS_AND_AGGREGATION_REGISTRY "TEMPERATURE_MIN" :=
  (c5_lookup_case_insensitive METRICS_AND_AGGREGATION_REGISTRY
    "temperature_min" "TEMPERATURE_MIN" (by decide)).1

/-- C6: `full_name` is the name with `"_" + aggregation` appended when the
aggregation is set and the bare name otherwise; two metrics differing only
in their aggregation therefore carry distinct full names, and the registry
dict built from both keeps both entries, each retrievable under its own
key. -/
theorem c6_full_name_distinct_coexist (nm u : String) (b : Bool) (a : Aggregation)
    (a1 a2 : Option Aggregation) (h : a1 ≠ a2) :
    (mkMetrics nm u b (some a)).full_name =
        (mkMetrics nm u b (some a)).name ++ "_" ++ a.toStr ∧
    (mkMetrics nm u b none).full_name = (mkMetrics nm u b none).name ∧
    (mkMetrics nm u b a1).full_name ≠ (mkMetrics nm u b a2).full_name ∧
    (buildDict [mkMetrics nm u b a1, mkMetrics nm u b a2]).map Prod.fst =
      [(mkMetrics nm u b a1).full_name, (mkMetrics nm u b a2).full_name] ∧
    lookupKey (mkMetrics nm u b a1).full_name
        (buildDict [mkMetrics nm u b a1, mkMetrics nm u b a2]) =
      some (mkMetrics nm u b a1) ∧
    lookupKey (mkMetrics nm u b a2).full_name
        (buildDict [mkMetrics nm u b a1, mkMetrics nm u b a2]) =
      some (mkMetrics nm u b a2) := by
  have hne : (mkMetrics nm u b a1).full_name ≠ (mkMetrics nm u b a2).full_name :=
    full_name_ne_of_agg_ne h
  have hbd : buildDict [mkMetrics nm u b a1, mkMetrics nm u b a2] =
      [((mkMetrics nm u b a1).full_name, mkMetrics nm u b a1),
       ((mkMetrics nm u b a2).full_name, mkMetrics nm u b a2)] :=
    buildDict_of_nodup (by simp [hne])
  refine ⟨rfl, rfl, hne, ?_, ?_, ?_⟩
  · rw [hbd]; rfl
  · rw [hbd]
    unfold lookupKey
    rw [if_pos rfl]
  · rw [hbd]
    unfold lookupKey
    rw [if_neg hne]
    unfold lookupKey
    rw [if_pos rfl]

theorem c6_full_name_distinct_coexist_witness :
    (mkMetrics "temperature" "C" false (some Aggregation.MIN)).full_name ≠
      (mkMetrics "temperature" "C" false (some Aggregation.MAX)).full_name :=
  (c6_full_name_distinct_coexist "temperature" "C" false Aggregation.MIN
    (some Aggregation.MIN) (some Aggregation.MAX) (by decide)).2.2.1

/-- C7: the stored name of a constructed metric is the argument uppercased
with each internal whitespace run collapsed to a single underscore (per
`specNormalizeName`), the other three fields are stored unchanged, and
"wind speed at 2m" normalizes to "WIND_SPEED_AT_2M". -/
theorem c7_constructor_normalizes_name (raw u : String) (b : Bool)
    (a : Option Aggregation) :
    (mkMetrics raw u b a).name = specNormalizeName raw ∧
    (mkMetrics raw u b a).unit = u ∧
    (mkMetrics raw u b a).is_cumulative = b ∧
    (mkMetrics raw u b a).aggregation = a ∧
    (mkMetrics "wind speed at 2m" "km/h" false none).name = "WIND_SPEED_AT_2M" :=
  ⟨normalizeName_eq_specNormalizeName raw, rfl, rfl, rfl, by decide⟩

/-- C8: the dict representation of a metric with no aggregation omits the
`aggregation` key entirely (it is not a null marker), and splatting that
dict back into the constructor with an aggregation override yields a metric
with the same name, unit and cumulative flag and a different full name. -/
theorem c8_dict_omits_unset_aggregation (raw u : String) (b : Bool)
    (a : Aggregation) :
    (mkMetrics raw u b none).dict.aggregation = none ∧
    ∃ m' : Metrics,
      metricsOfDictWithAgg (mkMetrics raw u b none).dict a = some m' ∧
      m'.name = (mkMetrics raw u b none).name ∧
      m'.unit = u ∧
      m'.is_cumulative = b ∧
      m'.aggregation = some a ∧
      m'.full_name ≠ (mkMetrics raw u b none).full_name := by
  have hn := normalizeName_idem raw
  refine ⟨rfl, mkMetrics (normalizeName raw) u b (some a), rfl, hn, rfl, rfl, rfl, ?_⟩
  show (Metrics.mk (normalizeName (normalizeName raw)) u b (some a)).full_name ≠
    (Metrics.mk (normalizeName raw) u b none).full_name
  rw [hn]
  exact full_name_ne_of_agg_ne (by simp)

/-- C9: the generated enumeration's member names and member values are both
exactly the registry's full-name list, every member's value equals its name,
the enumeration's own name is the registry prefix followed by the fixed
suffix "Metrics", and registries with different prefixes yield enumerations
with different names. -/
theorem c9_enum_members_and_name (r r2 : MetricsRegistry) (h : r.pfx ≠ r2.pfx) :
    (get_enum_from_metrics r).ename = r.pfx ++ "Metrics" ∧
    (get_enum_from_metrics r).members.map Prod.fst = list_all_metrics_names r ∧
    (get_enum_from_metrics r).members.map Prod.snd = list_all_metrics_names r ∧
    (∀ p ∈ (get_enum_from_metrics r).members, p.2 = p.1) ∧
    (get_enum_from_metrics r).ename ≠ (get_enum_from_metrics r2).ename := by
  refine ⟨rfl, ?_, ?_, ?_, ?_⟩
  · unfold get_enum_from_metrics list_all_metrics_names
    rw [List.map_map]
    rfl
  · unfold get_enum_from_metrics list_all_metrics_names
    rw [List.map_map]
    rfl
  · intro p hp
    rcases List.mem_map.mp hp with ⟨kv, _, rfl⟩
    rfl
  · intro hEq
    exact h (string_append_left_cancel hEq)

theorem c9_enum_members_and_name_witness :
    (get_enum_from_metrics MAIN_METRICS_REGISTRY).ename ≠
      (get_enum_from_metrics METRICS_AND_AGGREGATION_REGISTRY).ename :=
  (c9_enum_members_and_name MAIN_METRICS_REGISTRY METRICS_AND_AGGREGATION_REGISTRY
    (by decide)).2.2.2.2

/-- C2: the filter operation fails exactly when some input row violates the
`Timeseries` schema — a `metrics` value outside the reference registry's
full names, or a mistyped `timestamp` or `value` — and on failure it
returns the schema error and no rows (the error is raised by the
`check_input` gate before the filtering body runs); in particular the input
whose second row carries `metrics="RAINFALL"` fails even though its first
row is valid. -/
theorem c2_schema_violation_all_or_nothing (rows : List Row) (allow : List String) :
    ((∃ e, filter_metrics rows allow = .error e) ↔
      ∃ r ∈ rows, rowSchemaOK mainNames r = false) ∧
    (∃ e, filter_metrics
      [⟨.str "TEMPERATURE", .time 0, .num 1⟩, ⟨.str "RAINFALL", .time 0, .num 1⟩]
      ["TEMPERATURE"] = .error e) := by
  refine ⟨filter_metrics_error_iff rows allow, ?_⟩
  apply (filter_metrics_error_iff _ _).mpr
  exact ⟨⟨.str "RAINFALL", .time 0, .num 1⟩, by decide, by decide⟩

/-- C3: on schema-valid input, `filter_metrics` returns exactly the rows
whose `metrics` value belongs to the caller-supplied allow-list, in input
order, as rows of the same three fields with the helper membership flag
gone; in particular the two-row example filtered with `["TEMPERATURE"]`
returns exactly its first row. -/
theorem c3_filter_keeps_allowed_rows (rows : List Row) (allow : List String)
    (hvalid : ∀ r ∈ rows, rowSchemaOK mainNames r = true) :
    filter_metrics rows allow = .ok (rows.filter (rowInMetrics allow)) ∧
    filter_metrics
        [⟨.str "TEMPERATURE", .time 1, .num 1⟩, ⟨.str "RAIN_FALL", .time 2, .num 1⟩]
        ["TEMPERATURE"] =
      .ok [⟨.str "TEMPERATURE", .time 1, .num 1⟩] := by
  refine ⟨filter_metrics_ok hvalid, ?_⟩
  rfl

theorem c3_filter_keeps_allowed_rows_witness :
    filter_metrics
        [⟨.str "TEMPERATURE", .time 1, .num 1⟩, ⟨.str "RAIN_FALL", .time 2, .num 1⟩]
        ["TEMPERATURE"] =
      .ok ([⟨.str "TEMPERATURE", .time 1, .num 1⟩,
            ⟨.str "RAIN_FALL", .time 2, .num 1⟩].filter
        (rowInMetrics ["TEMPERATURE"])) :=
  (c3_filter_keeps_allowed_rows
    [⟨.str "TEMPERATURE", .time 1, .num 1⟩, ⟨.str "RAIN_FALL", .time 2, .num 1⟩]
    ["TEMPERATURE"] (by decide)).1

end WeatherMetrics
